import Mathlib

set_option maxRecDepth 4000

/-!
Verification development for the rdocs core: the multi-pattern block
extractor (`parser.rs`) and the marker-based replacement engine
(`replacer.rs`), shallowly embedded over `List Char` text.

Modelling conventions (stated once, used throughout):
* Text is `List Char`; a file is its list of lines (`List Str`), matching the
  line-oriented scanner `Content::extract` which reads via `reader.lines()`.
* A compiled `Regex` used as a per-line marker test is modelled as its source
  text plus a line predicate (`RegexM`).  The occurrence count
  `pattern.start.captures_iter(&content).count()` of `Content::new` is
  modelled as the number of matching lines (markers are line-anchored and
  match at most once per line).
* The replacer's combined regex `(?s){start}(.*){end}` is modelled by
  `leftmostGreedyMatch`: the leftmost start-marker occurrence followed by the
  last end-marker occurrence after it (greedy `(.*)` with `(?s)`); capture
  group 1 is the start-marker span, group 3 the content span, group 4 the
  end-marker span, exactly as in the compiled template.  With the greedy
  `(.*)` a match extends to the last end-marker occurrence, so the regex has
  at most one match in the document and `re.replace_all` performs a single
  splice; its replacement-string `$`-capture expansion is modelled by
  `expandReplacement` over the match's capture list.  The capture indices
  the source reads (1, 3, 4) are the start span, content and end span of
  the compiled default template exactly when the identifier contributes no
  capture group of its own (no parentheses); an identifier with parentheses
  shifts the numbering in the source, so the idempotence theorem carries
  that proviso as a hypothesis.
* Marker templates are modelled in their canonical literal form: the source
  template `(<!--\s*📖(ID)\s*-->)` is rendered as the literal `<!--📖ID-->`
  (`\s*` at its zero-width instantiation, capture groups represented
  structurally by the matcher as described above).
* `Regex::new` failure on the substituted pattern (identifier values
  containing regex metacharacters) is modelled as an unbalanced-parenthesis
  check on the pattern source, the representative failure mode.
* File IO is modelled by threading a filesystem `FS := String → Str`
  (path to contents) through the batch entry points.
-/

deriving instance DecidableEq for Except

abbrev Str := List Char

def str (s : String) : Str := s.data

/-- Rust `str::trim`: drop leading and trailing whitespace. -/
def trimChars (s : Str) : Str :=
  ((s.dropWhile Char.isWhitespace).reverse.dropWhile Char.isWhitespace).reverse

/-! ## pattern.rs -/

/-- A compiled `Regex` used as a per-line marker test: its source text
(`Regex::to_string`) together with its line predicate (`Regex::is_match`). -/
structure RegexM where
  src : Str
  isMatch : Str → Bool

/-- `Pattern` from `pattern.rs`: start marker, end marker, cleanup rules.
Each cleanup rule `regex` acts as `regex.replace_all(text, "")`, modelled as
a text-rewrite function. -/
structure Pattern where
  start : RegexM
  «end» : RegexM
  cleanups : List (Str → Str)

/-- `Pattern::start_with`. -/
def Pattern.start_with (p : Pattern) (line : Str) : Bool := p.start.isMatch line

/-- `Pattern::end_with`. -/
def Pattern.end_with (p : Pattern) (line : Str) : Bool := p.«end».isMatch line

/-- `Pattern::cleanup`: apply each cleanup rule in configured order. -/
def Pattern.cleanup (p : Pattern) (text : Str) : Str :=
  p.cleanups.foldl (fun acc f => f acc) text

/-! ## errors.rs -/

/-- `ParseError` (constructor `Io` renders the source's `IO` variant). -/
inductive ParseError
  | Io (msg : Str)
  | PatterNotEqual (pattern_start : Str) (pattern_end : Str)
deriving DecidableEq, Repr

/-- `ReplacerError` (constructor `Io` renders the source's `IO` variant). -/
inductive ReplacerError
  | Io (msg : Str)
  | Regex (pattern : Str)
  | CaptureNotFound (index : Int)
deriving DecidableEq, Repr

/-- The `Display` rendering of a `ReplacerError` (via `thiserror`). -/
def ReplacerError.msg : ReplacerError → Str
  | .Io m => m
  | .Regex p => str "regex parse error: " ++ p
  | .CaptureNotFound index => str "Capture not found in position: " ++ str (toString index)

/-! ## parser.rs : data types -/

structure ContentMetadata where
  id : Str
deriving DecidableEq, Repr

structure ContentBlock where
  metadata : ContentMetadata
  lines : List Str
deriving DecidableEq, Repr

structure ContentResults where
  metadata : ContentMetadata
  data : Str
deriving DecidableEq, Repr

/-! ## parser.rs : `ContentMetadata::new`

`PARSER_INFO_RE = (?:<id:(.*?)>)`: the leftmost position where `<id:` is
followed (with `.` not matching a newline, lazily) by `>`; group 1 is the
span between, trimmed. -/

/-- Scan for the `>` closing an `<id:` opener; `.` in the regex does not
match `\n`, so a newline before the `>` fails this start position. -/
def takeUntilGt : Str → Option Str
  | [] => none
  | c :: rest =>
    if c = '>' then some []
    else if c = '\n' then none
    else (takeUntilGt rest).map (c :: ·)

/-- Leftmost successful match of `<id:(.*?)>`, returning group 1. -/
def idCapture : Str → Option Str
  | [] => none
  | c :: rest =>
    if (str "<id:").isPrefixOf (c :: rest) then
      match takeUntilGt (rest.drop 3) with
      | some g => some g
      | none => idCapture rest
    else idCapture rest

/-- `ContentMetadata::new`: group 1 of the first `<id:(.*?)>` match, trimmed
(group 1 always participates in a successful match). -/
def ContentMetadata.new (line : Str) : Option ContentMetadata :=
  (idCapture line).map fun g => ⟨trimChars g⟩

/-! ## parser.rs : `Content::extract` scanner state

`level_stack : HashMap<usize, usize>` (open pattern -> opening line index) is
an association list; `collected_scoped_content : BTreeMap<(usize, usize),
ContentBlock>` is an association list kept sorted by key, mirroring the
BTreeMap's ordered iteration. -/

def alInsert (k v : Nat) : List (Nat × Nat) → List (Nat × Nat)
  | [] => [(k, v)]
  | (k', v') :: t => if k' = k then (k, v) :: t else (k', v') :: alInsert k v t

def alRemove (k : Nat) : List (Nat × Nat) → List (Nat × Nat)
  | [] => []
  | (k', v') :: t => if k' = k then t else (k', v') :: alRemove k t

def alContains (k : Nat) (l : List (Nat × Nat)) : Bool := l.any (fun kv => kv.1 = k)

/-- Strict lexicographic order on `(pattern index, occurrence counter)`
keys, the `Ord` instance a `BTreeMap<(usize, usize), _>` sorts by. -/
def keyLtb (a b : Nat × Nat) : Bool :=
  a.1 < b.1 || (a.1 = b.1 && a.2 < b.2)

/-- `BTreeMap::entry(k).or_insert(v)`: insert at the sorted position iff the
key is absent. -/
def btInsertIfAbsent {β : Type} (k : Nat × Nat) (v : β) :
    List ((Nat × Nat) × β) → List ((Nat × Nat) × β)
  | [] => [(k, v)]
  | (k', v') :: t =>
    if k = k' then (k', v') :: t
    else if keyLtb k k' then (k, v) :: (k', v') :: t
    else (k', v') :: btInsertIfAbsent k v t

/-- `BTreeMap::get_mut(k)` followed by an update; absent key: no change. -/
def btModify {β : Type} (k : Nat × Nat) (f : β → β) :
    List ((Nat × Nat) × β) → List ((Nat × Nat) × β)
  | [] => []
  | (k', v') :: t => if k = k' then (k', f v') :: t else (k', v') :: btModify k f t

def btLookup {β : Type} (k : Nat × Nat) : List ((Nat × Nat) × β) → Option β
  | [] => none
  | (k', v') :: t => if k = k' then some v' else btLookup k t

/-- The mutable state of one `Content::extract` pass. -/
structure ScanState where
  levelStack : List (Nat × Nat)
  collected : List ((Nat × Nat) × ContentBlock)
  currentLevels : List Nat
  maxLevel : Nat
deriving DecidableEq, Repr

/-- The body of the inner `for (pattern_index, pattern)` loop of
`Content::extract`, for one pattern on one line. -/
def processPattern (pattern_index : Nat) (p : Pattern) (line_index : Nat)
    (line : Str) (st : ScanState) : ScanState :=
  if p.start_with line then
    match ContentMetadata.new line with
    | none => st
    | some metadata =>
      let lvl := st.currentLevels.getD pattern_index 0 + 1
      { levelStack := alInsert pattern_index line_index st.levelStack
        collected := btInsertIfAbsent (pattern_index, lvl) ⟨metadata, []⟩ st.collected
        currentLevels := st.currentLevels.set pattern_index lvl
        maxLevel := max st.maxLevel lvl }
  else if p.end_with line then
    { st with levelStack := alRemove pattern_index st.levelStack }
  else if alContains pattern_index st.levelStack then
    { st with
      collected := btModify (pattern_index, st.currentLevels.getD pattern_index 0)
        (fun b => { b with lines := b.lines ++ [line] }) st.collected }
  else st

/-- The inner loop over `self.patterns.iter().enumerate()` for one line,
starting at pattern index `i`. -/
def processLinePats (line_index : Nat) (line : Str) :
    Nat → List Pattern → ScanState → ScanState
  | _, [], st => st
  | i, p :: ps, st =>
      processLinePats line_index line (i + 1) ps (processPattern i p line_index line st)

/-- The outer loop over `reader.lines().enumerate()`, starting at line
index `li`. -/
def scanLinesFrom (patterns : List Pattern) : Nat → List Str → ScanState → ScanState
  | _, [], st => st
  | li, line :: rest, st =>
      scanLinesFrom patterns (li + 1) rest (processLinePats li line 0 patterns st)

def initState (n : Nat) : ScanState := ⟨[], [], List.replicate n 0, 0⟩

def scanLines (patterns : List Pattern) (lines : List Str) : ScanState :=
  scanLinesFrom patterns 0 lines (initState patterns.length)

/-- The finalization loop of `Content::extract`: join the block's lines with
newline, apply the pattern's cleanups (falling back to the raw content when
the pattern index is not found), trim. -/
def finalizeBlock (patterns : List Pattern) (entry : (Nat × Nat) × ContentBlock) :
    ContentResults :=
  let match_content := List.intercalate [ '\n' ] entry.2.lines
  let cleanup_result :=
    match patterns.get? entry.1.1 with
    | some p => p.cleanup match_content
    | none => match_content
  ⟨entry.2.metadata, trimChars cleanup_result⟩

/-- `Content::extract` (the file has already been read into its lines; line
reading errors are outside the model). -/
def Content.extract (patterns : List Pattern) (lines : List Str) : List ContentResults :=
  ((scanLines patterns lines).collected).map (finalizeBlock patterns)

/-- Marker occurrence count of one regex in the file, as counted by
`Content::new` (`captures_iter(&content).count()`; markers are line-anchored
and match at most once per line). -/
def RegexM.countIn (re : RegexM) (lines : List Str) : Nat := lines.countP re.isMatch

/-- The validation loop of `Content::new`: per pattern, compare start and end
marker counts, failing with that pattern's own texts; accumulate the start
count as `expected_capture_count`. -/
def contentNew : List Pattern → List Str → Except ParseError Nat
  | [], _ => .ok 0
  | p :: ps, lines =>
    let start_count := p.start.countIn lines
    let end_count := p.«end».countIn lines
    if start_count ≠ end_count then
      .error (.PatterNotEqual p.start.src p.«end».src)
    else
      match contentNew ps lines with
      | .error e => .error e
      | .ok n => .ok (start_count + n)

/-- One file's extraction: `Content::new` validation, then `Content::extract`. -/
def extraction (patterns : List Pattern) (lines : List Str) :
    Except ParseError (List ContentResults) :=
  match contentNew patterns lines with
  | .error e => .error e
  | .ok _ => .ok (Content.extract patterns lines)

/-- A start-marker occurrence that carries a valid `<id:...>` identifier:
exactly the condition under which the scanner opens a block and advances the
occurrence counter. -/
def validStart (p : Pattern) (line : Str) : Bool :=
  p.start_with line && (ContentMetadata.new line).isSome

/-! ## replacer.rs -/

/-- `ReplaceStatus`; `Replaced` carries the id, the whole rewritten document
text, and the new block text. -/
inductive ReplaceStatus
  | Error (msg : Str)
  | NotFound (id : Str)
  | Equal (id : Str)
  | Replaced (id : Str) (all_content : Str) (new_content : Str)
deriving DecidableEq, Repr

def ReplaceStatus.isReplaced : ReplaceStatus → Bool
  | .Replaced _ _ _ => true
  | _ => false

structure ReplaceResult where
  path : String
  status : ReplaceStatus
deriving DecidableEq, Repr

/-- `Replace`: the start and end marker templates, each containing the
identifier placeholder `ID`. -/
structure Replace where
  start : Str
  «end» : Str

/-- `str::replace(needle, repl)` (all non-overlapping occurrences, left to
right, replacement not rescanned); `k` counts matched characters still to be
skipped. -/
def replaceSubAux (needle repl : Str) : Nat → Str → Str
  | 0, [] => []
  | 0, c :: rest =>
    if !needle.isEmpty && needle.isPrefixOf (c :: rest) then
      repl ++ replaceSubAux needle repl (needle.length - 1) rest
    else
      c :: replaceSubAux needle repl 0 rest
  | _ + 1, [] => []
  | k + 1, _ :: rest => replaceSubAux needle repl k rest

def replaceSub (hay needle repl : Str) : Str := replaceSubAux needle repl 0 hay

/-- Canonical literal form of `DEFAULT_START_PATTERN =
r"(<!--\s*📖(ID)\s*-->)"` (see the module docstring). -/
def DEFAULT_START_PATTERN : Str := str "<!--📖ID-->"

/-- Canonical literal form of `DEFAULT_END_PATTERN =
r"(<!--\s*(ID)📖\s*-->)"`. -/
def DEFAULT_END_PATTERN : Str := str "<!--ID📖-->"

def Replace.defaultR : Replace := ⟨DEFAULT_START_PATTERN, DEFAULT_END_PATTERN⟩

/-- All positions at which `needle` occurs in `hay` (ascending). -/
def occList (needle hay : Str) : List Nat :=
  (List.range (hay.length + 1)).filter fun p => needle.isPrefixOf (hay.drop p)

/-- Leftmost match of `(?s){s}(.*){e}` with greedy `(.*)`: the first
occurrence of `s`, paired with the last occurrence of `e` lying at or after
the end of that `s` span.  Returns the start positions of the two marker
spans. -/
def leftmostGreedyMatch (hay s e : Str) : Option (Nat × Nat) :=
  match (occList s hay).head? with
  | none => none
  | some p =>
    match ((occList e hay).filter fun q => p + s.length ≤ q).getLast? with
    | none => none
    | some q => some (p, q)

/-- The half-open character slice `[a, b)`. -/
def sliceStr (l : Str) (a b : Nat) : Str := (l.drop a).take (b - a)

/-- Balanced-parenthesis check: the modelled success condition of
`Regex::new` on the substituted pattern source. -/
def parenDepthOk : Str → Nat → Bool
  | [], d => d = 0
  | c :: rest, d =>
    if c = '(' then parenDepthOk rest (d + 1)
    else if c = ')' then
      match d with
      | 0 => false
      | d' + 1 => parenDepthOk rest d'
    else parenDepthOk rest d

def regexCompiles (s : Str) : Bool := parenDepthOk s 0

/-- The source text of the combined regex built by `find_and_replace`:
`(?s){start}(.*){end}` after substituting the identifier for `ID`. -/
def Replace.fullRegexSrc (r : Replace) (id : Str) : Str :=
  str "(?s)" ++ replaceSub r.start (str "ID") id ++ str "(.*)"
    ++ replaceSub r.«end» (str "ID") id

/-! `re.replace_all`'s replacement-string expansion (regex crate,
`expand.rs`): `$$` is a literal `$`; `$name` takes the longest run of
`[0-9A-Za-z_]` after the `$`, and `${name}` everything up to the closing
brace; an all-digit name is a capture index, any other name a named-group
lookup (the marker patterns define no named groups); an unknown or
non-participating group expands to nothing; a malformed reference (no name
characters, or an unclosed brace) leaves the `$` literal. -/

def isCapLetter (c : Char) : Bool := c.isAlphanum || c = '_'

def takeNameRun : Str → Str × Str
  | [] => ([], [])
  | c :: rest =>
    if isCapLetter c then
      let nr := takeNameRun rest
      (c :: nr.1, nr.2)
    else ([], c :: rest)

def takeUntilBrace : Str → Option (Str × Str)
  | [] => none
  | c :: rest =>
    if c = '}' then some ([], rest)
    else (takeUntilBrace rest).map (fun nr => (c :: nr.1, nr.2))

def nameToIndex (name : Str) : Option Nat :=
  if !name.isEmpty && name.all Char.isDigit then
    some (name.foldl (fun acc c => acc * 10 + (c.toNat - 48)) 0)
  else
    none

/-- Resolve a capture reference: a numeric name indexes the capture list
(an absent index expands to nothing); any other name is a named-group
lookup and the pattern has no named groups. -/
def capRef (caps : List Str) (name : Str) : Str :=
  match nameToIndex name with
  | some n => caps.getD n []
  | none => []

/-- One pass of the expansion scan; the fuel starts at the replacement's
length and every step consumes at least one character. -/
def expandAux (caps : List Str) : Nat → Str → Str
  | _, [] => []
  | 0, _ :: _ => []
  | fuel + 1, c :: rest =>
    if c = '$' then
      match rest with
      | '$' :: rest2 => '$' :: expandAux caps fuel rest2
      | '{' :: rest2 =>
        match takeUntilBrace rest2 with
        | some (name, rest3) => capRef caps name ++ expandAux caps fuel rest3
        | none => '$' :: expandAux caps fuel rest
      | _ =>
        match takeNameRun rest with
        | ([], _) => '$' :: expandAux caps fuel rest
        | (nm :: nmrest, rest3) => capRef caps (nm :: nmrest) ++ expandAux caps fuel rest3
    else c :: expandAux caps fuel rest

def expandReplacement (caps : List Str) (repl : Str) : Str :=
  expandAux caps repl.length repl

/-- `Replace::find_and_replace`.  The match's captures are, in order,
group 0 = whole match, 1 = start-marker span, 2 = identifier, 3 = content,
4 = end-marker span, 5 = identifier: the groups of the compiled
default-shaped template whenever the substituted identifier contributes no
capture group of its own (no parentheses).  An identifier containing
parentheses shifts the group numbering in the source — `capture.get(4)` is
then no longer the end-marker span and the `CaptureNotFound` arms can
become reachable — which is outside this model's domain; the idempotence
theorem below therefore carries a parenthesis-free hypothesis.  Within the
domain, groups 1, 3, 4 always participate.  The single greedy match makes
`re.replace_all` one splice, whose replacement string undergoes
`$`-capture expansion (`expandReplacement`). -/
def Replace.find_and_replace (r : Replace) (content : Str)
    (parse_content : ContentResults) : Except ReplacerError ReplaceStatus :=
  let start_re_pattern := replaceSub r.start (str "ID") parse_content.metadata.id
  let end_re_pattern := replaceSub r.«end» (str "ID") parse_content.metadata.id
  if regexCompiles (r.fullRegexSrc parse_content.metadata.id) = false then
    .error (.Regex (r.fullRegexSrc parse_content.metadata.id))
  else
    match leftmostGreedyMatch content start_re_pattern end_re_pattern with
    | some (p, q) =>
      if trimChars (sliceStr content (p + start_re_pattern.length) q)
          = parse_content.data then
        .ok (.Equal parse_content.metadata.id)
      else
        let keep_start := sliceStr content p (p + start_re_pattern.length)
        let keep_end := sliceStr content q (q + end_re_pattern.length)
        let caps := [sliceStr content p (q + end_re_pattern.length), keep_start,
          parse_content.metadata.id,
          sliceStr content (p + start_re_pattern.length) q, keep_end,
          parse_content.metadata.id]
        let replace := keep_start ++ '\n' :: parse_content.data ++ '\n' :: keep_end
        let replaced := content.take p ++ expandReplacement caps replace
            ++ content.drop (q + end_re_pattern.length)
        .ok (.Replaced parse_content.metadata.id replaced parse_content.data)
    | none => .ok (.NotFound parse_content.metadata.id)

/-- The loop of `Replace::replace` over `parse_contents` (the file already
read into `content`): `?` on `find_and_replace` aborts the whole call; a
`Replaced` status updates the running document text. -/
def Replace.replaceList (r : Replace) (path : String) (content : Str) :
    List ContentResults → Except ReplacerError (Str × List ReplaceResult)
  | [] => .ok (content, [])
  | parse_content :: rest =>
    match r.find_and_replace content parse_content with
    | .error e => .error e
    | .ok status =>
      match r.replaceList path
          (match status with
            | .Replaced _ all_content _ => all_content
            | _ => content) rest with
      | .error e => .error e
      | .ok (final, results) => .ok (final, ⟨path, status⟩ :: results)

/-- A filesystem: path to file contents. -/
def FS : Type := String → Str

/-- Overwrite one file's bytes (`File::create` + `write_all`). -/
def FS.write (fs : FS) (path : String) (content : Str) : FS :=
  fun p => if p = path then content else fs p

/-- `Replace::replace`: read the file, run the loop; never writes. -/
def Replace.replace (r : Replace) (fs : FS) (path : String)
    (parse_contents : List ContentResults) :
    Except ReplacerError (Str × List ReplaceResult) :=
  r.replaceList path (fs path) parse_contents

/-- `Replace::replace_with_save`: write the new content back iff some status
is `Replaced`. -/
def Replace.replace_with_save (r : Replace) (fs : FS) (path : String)
    (parse_contents : List ContentResults) :
    Except ReplacerError (FS × List ReplaceResult) :=
  match r.replace fs path parse_contents with
  | .error e => .error e
  | .ok (new_content, status) =>
    if status.any (fun s => s.status.isReplaced) then
      .ok (fs.write path new_content, status)
    else
      .ok (fs, status)

/-- The per-file body of `Replace::stats`: statuses from `replace`, an error
collapsed to one per-file `Error` result; never writes. -/
def Replace.statsFile (r : Replace) (fs : FS) (path : String)
    (parse_contents : List ContentResults) : FS × List ReplaceResult :=
  match r.replace fs path parse_contents with
  | .ok (_, status) => (fs, status)
  | .error e => (fs, [⟨path, .Error e.msg⟩])

/-- The per-file body of `Replace::replace_content`: `replace_with_save`,
an error collapsed to one per-file `Error` result. -/
def Replace.replaceContentFile (r : Replace) (fs : FS) (path : String)
    (parse_contents : List ContentResults) : FS × List ReplaceResult :=
  match r.replace_with_save fs path parse_contents with
  | .ok (fs', status) => (fs', status)
  | .error e => (fs, [⟨path, .Error e.msg⟩])

/-! ## Concrete patterns and documents used by witnesses -/

/-- A line matcher: the line begins with the given marker text. -/
def linePred (s : String) : Str → Bool := fun l => (str s).isPrefixOf l

def pat1 : Pattern := ⟨⟨str "#S1", linePred "#S1"⟩, ⟨str "#E1", linePred "#E1"⟩, []⟩

def pat2 : Pattern := ⟨⟨str "#S2", linePred "#S2"⟩, ⟨str "#E2", linePred "#E2"⟩, []⟩

def docW : Str := str "<!--📖A-->x<!--A📖-->"

def crA : ContentResults := ⟨⟨str "A"⟩, str "a"⟩

def crB : ContentResults := ⟨⟨str "A"⟩, str "b"⟩

def crBad : ContentResults := ⟨⟨str "("⟩, str "x"⟩

def fsW : FS := fun _ => docW

/-! ## Shared helper lemmas -/

lemma contentNew_error_of_unbalanced (ps : List Pattern) (lines : List Str)
    (h : ∃ p ∈ ps, p.start.countIn lines ≠ p.«end».countIn lines) :
    ∃ p ∈ ps, p.start.countIn lines ≠ p.«end».countIn lines ∧
      contentNew ps lines = .error (.PatterNotEqual p.start.src p.«end».src) := by
  induction ps with
  | nil => obtain ⟨p, hp, -⟩ := h; cases hp
  | cons q qs ih =>
    obtain ⟨p, hp, hne⟩ := h
    by_cases hq : q.start.countIn lines ≠ q.«end».countIn lines
    · exact ⟨q, List.mem_cons_self _ _, hq, by simp [contentNew, hq]⟩
    · push_neg at hq
      have hp' : p ∈ qs := by
        rcases List.mem_cons.mp hp with rfl | h'
        · exact absurd hq hne
        · exact h'
      obtain ⟨r, hr, hrne, heq⟩ := ih ⟨p, hp', hne⟩
      exact ⟨r, List.mem_cons_of_mem _ hr, hrne, by simp [contentNew, hq, heq]⟩

/-! ## C5 -/

/-- C5: a line matching a Pattern's start marker but lacking a parseable
`<id:...>` token leaves the scanner state for that pattern entirely
unchanged: no block is created, the occurrence counter does not advance, the
open/closed state is untouched, so no subsequent content is captured on
account of that start marker. -/
theorem c5_invalid_id_start_is_inert :
    ∀ (pattern_index : Nat) (p : Pattern) (line_index : Nat) (line : Str) (st : ScanState),
      p.start_with line = true →
      ContentMetadata.new line = none →
      processPattern pattern_index p line_index line st = st := by
  intro i p li line st h1 h2
  simp [processPattern, h1, h2]

theorem c5_invalid_id_start_is_inert_witness :
    pat1.start_with (str "#S1") = true ∧ ContentMetadata.new (str "#S1") = none ∧
      processPattern 0 pat1 0 (str "#S1") (initState 1) = initState 1 :=
  ⟨by decide, by decide,
    c5_invalid_id_start_is_inert 0 pat1 0 (str "#S1") (initState 1) (by decide) (by decide)⟩

/-! ## C6 -/

/-- C6: the scanner's per-pattern step, fully characterized.  A start marker
with a valid identifier bumps the occurrence counter and creates the new
(latest-counter) block; a plain line while the pattern is open is appended
only to the block at the current (latest) counter value (`btModify` touches
exactly that one key); an end marker only clears the pattern's open flag; and
while the pattern is closed no line is attributed to any block for it.
Hence a re-entrant second start truncates the outer block's accumulation, and
after the first end marker is consumed no lines are attributed for that
pattern until a fresh start reopens it. -/
theorem c6_reentrant_attribution :
    (∀ (i : Nat) (p : Pattern) (li : Nat) (line : Str) (st : ScanState) (md : ContentMetadata),
        p.start_with line = true → ContentMetadata.new line = some md →
        processPattern i p li line st =
          { levelStack := alInsert i li st.levelStack
            collected := btInsertIfAbsent (i, st.currentLevels.getD i 0 + 1) ⟨md, []⟩ st.collected
            currentLevels := st.currentLevels.set i (st.currentLevels.getD i 0 + 1)
            maxLevel := max st.maxLevel (st.currentLevels.getD i 0 + 1) }) ∧
    (∀ (i : Nat) (p : Pattern) (li : Nat) (line : Str) (st : ScanState),
        p.start_with line = false → p.end_with line = true →
        processPattern i p li line st = { st with levelStack := alRemove i st.levelStack }) ∧
    (∀ (i : Nat) (p : Pattern) (li : Nat) (line : Str) (st : ScanState),
        p.start_with line = false → p.end_with line = false →
        alContains i st.levelStack = true →
        processPattern i p li line st =
          { st with collected := (btModify (i, st.currentLevels.getD i 0)
                      (fun b => { b with lines := b.lines ++ [line] }) st.collected) }) ∧
    (∀ (i : Nat) (p : Pattern) (li : Nat) (line : Str) (st : ScanState),
        p.start_with line = false → p.end_with line = false →
        alContains i st.levelStack = false →
        processPattern i p li line st = st) := by
  refine ⟨?_, ?_, ?_, ?_⟩
  · intro i p li line st md h1 h2; simp [processPattern, h1, h2]
  · intro i p li line st h1 h2; simp [processPattern, h1, h2]
  · intro i p li line st h1 h2 h3; simp [processPattern, h1, h2, h3]
  · intro i p li line st h1 h2 h3; simp [processPattern, h1, h2, h3]

def stOpen1 : ScanState := ⟨[(0, 0)], [((0, 1), ⟨⟨str "a"⟩, []⟩)], [1], 1⟩

theorem c6_reentrant_attribution_witness :
    (processPattern 0 pat1 0 (str "#S1 <id:a>") (initState 1) =
      { levelStack := alInsert 0 0 (initState 1).levelStack
        collected := btInsertIfAbsent (0, (initState 1).currentLevels.getD 0 0 + 1)
          ⟨⟨str "a"⟩, []⟩ (initState 1).collected
        currentLevels := (initState 1).currentLevels.set 0
          ((initState 1).currentLevels.getD 0 0 + 1)
        maxLevel := max (initState 1).maxLevel ((initState 1).currentLevels.getD 0 0 + 1) }) ∧
    (processPattern 0 pat1 1 (str "#E1") stOpen1 =
      { stOpen1 with levelStack := alRemove 0 stOpen1.levelStack }) ∧
    (processPattern 0 pat1 1 (str "x") stOpen1 =
      { stOpen1 with collected := (btModify (0, stOpen1.currentLevels.getD 0 0)
                  (fun b => { b with lines := b.lines ++ [str "x"] }) stOpen1.collected) }) ∧
    (processPattern 0 pat1 0 (str "x") (initState 1) = initState 1) :=
  ⟨c6_reentrant_attribution.1 0 pat1 0 (str "#S1 <id:a>") (initState 1) ⟨str "a"⟩
      (by decide) (by decide),
    c6_reentrant_attribution.2.1 0 pat1 1 (str "#E1") stOpen1 (by decide) (by decide),
    c6_reentrant_attribution.2.2.1 0 pat1 1 (str "x") stOpen1 (by decide) (by decide) (by decide),
    c6_reentrant_attribution.2.2.2 0 pat1 0 (str "x") (initState 1) (by decide) (by decide)
      (by decide)⟩

/-! ## C3 -/

/-- C3: if any Pattern's start-marker count differs from its end-marker count
in a file, extraction fails with `PatterNotEqual` carrying an offending
Pattern's own start and end text (the first such pattern in configured
order), and no ContentResults are produced for that file. -/
theorem c3_unbalanced_markers_fail :
    ∀ (patterns : List Pattern) (lines : List Str),
      (∃ p ∈ patterns, p.start.countIn lines ≠ p.«end».countIn lines) →
      ∃ p ∈ patterns, p.start.countIn lines ≠ p.«end».countIn lines ∧
        extraction patterns lines = .error (.PatterNotEqual p.start.src p.«end».src) := by
  intro patterns lines h
  obtain ⟨p, hp, hne, heq⟩ := contentNew_error_of_unbalanced patterns lines h
  exact ⟨p, hp, hne, by simp [extraction, heq]⟩

theorem c3_unbalanced_markers_fail_witness :
    ∃ p ∈ [pat1], p.start.countIn [str "#S1 <id:a>"] ≠ p.«end».countIn [str "#S1 <id:a>"] ∧
      extraction [pat1] [str "#S1 <id:a>"] = .error (.PatterNotEqual p.start.src p.«end».src) :=
  c3_unbalanced_markers_fail [pat1] [str "#S1 <id:a>"] ⟨pat1, by simp, by decide⟩

/-! ## C10 -/

/-- C10: the marker-balance precondition counts start markers purely by
occurrence: even when every start-marker line for the unbalanced pattern
lacks a valid `<id:...>` identifier (so it could never produce a block),
extraction still fails with the unbalanced-markers error. -/
theorem c10_idless_start_still_counted :
    ∀ (patterns : List Pattern) (lines : List Str) (p : Pattern),
      p ∈ patterns →
      p.start.countIn lines ≠ p.«end».countIn lines →
      (∀ line ∈ lines, p.start_with line = true → ContentMetadata.new line = none) →
      ∃ s e, extraction patterns lines = .error (.PatterNotEqual s e) := by
  intro patterns lines p hp hne _
  obtain ⟨q, -, -, heq⟩ := contentNew_error_of_unbalanced patterns lines ⟨p, hp, hne⟩
  exact ⟨q.start.src, q.«end».src, by simp [extraction, heq]⟩

theorem c10_idless_start_still_counted_witness :
    pat1.start.countIn [str "#S1"] ≠ pat1.«end».countIn [str "#S1"] ∧
      (∀ line ∈ [str "#S1"], pat1.start_with line = true → ContentMetadata.new line = none) ∧
      ∃ s e, extraction [pat1] [str "#S1"] = .error (.PatterNotEqual s e) :=
  ⟨by decide, by decide,
    c10_idless_start_still_counted [pat1] [str "#S1"] pat1 (by simp) (by decide) (by decide)⟩

/-! ## C9 -/

/-- The document-text evolution of one `Replace::replace` loop step: a
`Replaced` status installs its rewritten text, everything else keeps the
running text. -/
def stepText (r : Replace) (t : Str) (cr : ContentResults) : Str :=
  match r.find_and_replace t cr with
  | .ok (.Replaced _ all_content _) => all_content
  | _ => t

lemma replaceList_cons_ok {r : Replace} {path : String} {content : Str}
    {pc : ContentResults} {rest : List ContentResults} {status : ReplaceStatus}
    (hfr : r.find_and_replace content pc = .ok status) :
    r.replaceList path content (pc :: rest) =
      match r.replaceList path (stepText r content pc) rest with
      | .error e => .error e
      | .ok (final, results) => .ok (final, ⟨path, status⟩ :: results) := by
  rw [Replace.replaceList, hfr]
  dsimp only
  cases status <;> simp [stepText, hfr]

/-- C9: whenever `replace` returns successfully, it returns one
`ReplaceResult` per input ContentResult, in input order, each carrying the
target file's path, with the j-th status produced by running the matcher on
the text accumulated from the first j steps; the returned document text is
the input text transformed by exactly the `Replaced` steps in sequence. -/
theorem c9_replace_per_input_statuses :
    ∀ (r : Replace) (path : String) (content : Str) (crs : List ContentResults)
      (final : Str) (results : List ReplaceResult),
      r.replaceList path content crs = .ok (final, results) →
      results.length = crs.length ∧
      final = crs.foldl (stepText r) content ∧
      ∀ j, j < crs.length →
        (results.getD j ⟨"", .Error []⟩).path = path ∧
        Except.ok ((results.getD j ⟨"", .Error []⟩).status)
          = r.find_and_replace ((crs.take j).foldl (stepText r) content)
              (crs.getD j ⟨⟨[]⟩, []⟩) := by
  intro r path content crs
  induction crs generalizing content with
  | nil =>
    intro final results h
    simp only [Replace.replaceList, Except.ok.injEq, Prod.mk.injEq] at h
    obtain ⟨rfl, rfl⟩ := h
    simp
  | cons pc rest ih =>
    intro final results h
    cases hfr : r.find_and_replace content pc with
    | error e =>
      rw [Replace.replaceList, hfr] at h
      cases h
    | ok status =>
      rw [replaceList_cons_ok hfr] at h
      cases hrl : r.replaceList path (stepText r content pc) rest with
      | error e => rw [hrl] at h; cases h
      | ok pr =>
        obtain ⟨fin, res⟩ := pr
        rw [hrl] at h
        simp only [Except.ok.injEq, Prod.mk.injEq] at h
        obtain ⟨rfl, rfl⟩ := h
        obtain ⟨ihlen, ihfin, ihidx⟩ := ih (stepText r content pc) fin res hrl
        refine ⟨by simp [ihlen], by simpa using ihfin, ?_⟩
        intro j hj
        cases j with
        | zero => exact ⟨rfl, by simpa using hfr.symm⟩
        | succ j' =>
          have hj' : j' < rest.length := by simpa using Nat.lt_of_succ_lt_succ hj
          have := ihidx j' hj'
          simpa using this

theorem c9_replace_per_input_statuses_witness :
    Replace.defaultR.replaceList "t" docW [crA, crB]
        = .ok (str "<!--📖A-->\nb\n<!--A📖-->",
            [⟨"t", .Replaced (str "A") (str "<!--📖A-->\na\n<!--A📖-->") (str "a")⟩,
             ⟨"t", .Replaced (str "A") (str "<!--📖A-->\nb\n<!--A📖-->") (str "b")⟩]) ∧
      ([⟨"t", .Replaced (str "A") (str "<!--📖A-->\na\n<!--A📖-->") (str "a")⟩,
        (⟨"t", .Replaced (str "A") (str "<!--📖A-->\nb\n<!--A📖-->") (str "b")⟩ :
          ReplaceResult)].length = [crA, crB].length ∧
       str "<!--📖A-->\nb\n<!--A📖-->" = [crA, crB].foldl (stepText Replace.defaultR) docW ∧
       ∀ j, j < [crA, crB].length →
        (([⟨"t", .Replaced (str "A") (str "<!--📖A-->\na\n<!--A📖-->") (str "a")⟩,
           ⟨"t", .Replaced (str "A") (str "<!--📖A-->\nb\n<!--A📖-->") (str "b")⟩] :
            List ReplaceResult).getD j ⟨"", .Error []⟩).path = "t" ∧
        Except.ok ((([⟨"t", .Replaced (str "A") (str "<!--📖A-->\na\n<!--A📖-->") (str "a")⟩,
           ⟨"t", .Replaced (str "A") (str "<!--📖A-->\nb\n<!--A📖-->") (str "b")⟩] :
            List ReplaceResult).getD j ⟨"", .Error []⟩).status)
          = Replace.defaultR.find_and_replace
              (([crA, crB].take j).foldl (stepText Replace.defaultR) docW)
              ([crA, crB].getD j ⟨⟨[]⟩, []⟩)) :=
  ⟨by decide,
    c9_replace_per_input_statuses Replace.defaultR "t" docW [crA, crB]
      (str "<!--📖A-->\nb\n<!--A📖-->")
      [⟨"t", .Replaced (str "A") (str "<!--📖A-->\na\n<!--A📖-->") (str "a")⟩,
       ⟨"t", .Replaced (str "A") (str "<!--📖A-->\nb\n<!--A📖-->") (str "b")⟩]
      (by decide)⟩

/-! ## C8 -/

/-- C8: `stats` never mutates any file content; `replace` only reads the
file (it is exactly the pure loop on the file's text, returning updated text
and statuses without producing a filesystem); `replace_with_save` writes the
new document text to the file's path iff at least one of the file's statuses
is `Replaced`, and performs no write otherwise. -/
theorem c8_write_iff_replaced :
    ∀ (r : Replace) (fs : FS) (path : String) (parse_contents : List ContentResults),
      (r.statsFile fs path parse_contents).1 = fs ∧
      r.replace fs path parse_contents = r.replaceList path (fs path) parse_contents ∧
      (∀ new_content status,
        r.replace fs path parse_contents = .ok (new_content, status) →
        (status.any (fun s => s.status.isReplaced) = true →
            r.replace_with_save fs path parse_contents
              = .ok (fs.write path new_content, status)) ∧
        (status.any (fun s => s.status.isReplaced) = false →
            r.replace_with_save fs path parse_contents = .ok (fs, status))) := by
  intro r fs path cs
  refine ⟨?_, rfl, ?_⟩
  · unfold Replace.statsFile
    cases r.replace fs path cs with
    | error e => rfl
    | ok pr => rfl
  · intro nc status h
    constructor <;> intro hany <;> unfold Replace.replace_with_save <;> rw [h] <;> simp [hany]

theorem c8_write_iff_replaced_witness :
    (Replace.defaultR.statsFile fsW "p" [crA]).1 = fsW ∧
      Replace.defaultR.replace_with_save fsW "p" [crA]
        = .ok (fsW.write "p" (str "<!--📖A-->\na\n<!--A📖-->"),
            [⟨"p", .Replaced (str "A") (str "<!--📖A-->\na\n<!--A📖-->") (str "a")⟩]) :=
  ⟨(c8_write_iff_replaced Replace.defaultR fsW "p" [crA]).1,
    ((c8_write_iff_replaced Replace.defaultR fsW "p" [crA]).2.2
        (str "<!--📖A-->\na\n<!--A📖-->")
        [⟨"p", .Replaced (str "A") (str "<!--📖A-->\na\n<!--A📖-->") (str "a")⟩]
        (by decide)).1 (by decide)⟩

/-! ## C2 -/

/-- C2 counterexample: a matcher-construction failure (identifier `(` makes
the substituted regex fail to compile) on the first ContentResult aborts
`replace` for the whole file: the call returns an error, producing no
per-identifier `Error` status and never processing the remaining
ContentResult. -/
theorem c2_counterexample :
    Replace.defaultR.replaceList "t" docW [crBad, crA]
      = .error (.Regex (Replace.defaultR.fullRegexSrc (str "("))) := by decide

lemma find_and_replace_ok_of_compiles (r : Replace) (content : Str) (cr : ContentResults)
    (hc : regexCompiles (r.fullRegexSrc cr.metadata.id) = true) :
    ∃ s, r.find_and_replace content cr = .ok s := by
  cases hx : r.find_and_replace content cr with
  | ok s => exact ⟨s, rfl⟩
  | error e =>
    exfalso
    unfold Replace.find_and_replace at hx
    simp only [hc, Bool.true_eq_false, if_false] at hx
    split at hx
    · split at hx <;> cases hx
    · cases hx

lemma replaceList_error_of_bad_matcher (r : Replace) (path : String)
    (bad : ContentResults) (rest : List ContentResults) :
    ∀ (pre : List ContentResults) (content : Str),
      (∀ cr ∈ pre, regexCompiles (r.fullRegexSrc cr.metadata.id) = true) →
      regexCompiles (r.fullRegexSrc bad.metadata.id) = false →
      r.replaceList path content (pre ++ bad :: rest)
        = .error (.Regex (r.fullRegexSrc bad.metadata.id)) := by
  intro pre
  induction pre with
  | nil =>
    intro content _ hbad
    have hfr : r.find_and_replace content bad
        = .error (.Regex (r.fullRegexSrc bad.metadata.id)) := by
      unfold Replace.find_and_replace
      simp [hbad]
    simp only [List.nil_append, Replace.replaceList, hfr]
  | cons cr pre ih =>
    intro content hpre hbad
    obtain ⟨s, hs⟩ := find_and_replace_ok_of_compiles r content cr
      (hpre cr (List.mem_cons_self _ _))
    rw [List.cons_append, Replace.replaceList, hs]
    dsimp only
    rw [ih _ (fun c hc => hpre c (List.mem_cons_of_mem _ hc)) hbad]

/-- C2 amended: a matcher-construction (or capture-extraction) failure while
processing one ContentResult aborts `replace` for that whole file: the call
returns the error, no per-identifier statuses are produced for that file and
the remaining ContentResults are not processed.  At the batch level the
per-file wrappers (`stats`, `replace_content`) turn the failure into a
single per-file `Error(message)` result and leave the filesystem unchanged;
degradation is per file, not per identifier. -/
theorem c2_matcher_failure_aborts_file :
    ∀ (r : Replace) (fs : FS) (path : String) (pre : List ContentResults)
      (bad : ContentResults) (rest : List ContentResults),
      (∀ cr ∈ pre, regexCompiles (r.fullRegexSrc cr.metadata.id) = true) →
      regexCompiles (r.fullRegexSrc bad.metadata.id) = false →
      r.replaceList path (fs path) (pre ++ bad :: rest)
          = .error (.Regex (r.fullRegexSrc bad.metadata.id)) ∧
      r.statsFile fs path (pre ++ bad :: rest)
          = (fs, [⟨path, .Error (ReplacerError.Regex (r.fullRegexSrc bad.metadata.id)).msg⟩]) ∧
      r.replaceContentFile fs path (pre ++ bad :: rest)
          = (fs, [⟨path, .Error (ReplacerError.Regex (r.fullRegexSrc bad.metadata.id)).msg⟩]) := by
  intro r fs path pre bad rest hpre hbad
  have h := replaceList_error_of_bad_matcher r path bad rest pre (fs path) hpre hbad
  refine ⟨h, ?_, ?_⟩
  · unfold Replace.statsFile Replace.replace
    rw [h]
  · unfold Replace.replaceContentFile Replace.replace_with_save Replace.replace
    rw [h]

theorem c2_matcher_failure_aborts_file_witness :
    (∀ cr ∈ [crA], regexCompiles (Replace.defaultR.fullRegexSrc cr.metadata.id) = true) ∧
      regexCompiles (Replace.defaultR.fullRegexSrc crBad.metadata.id) = false ∧
      (Replace.defaultR.replaceList "t" (fsW "t") ([crA] ++ crBad :: [crB])
          = .error (.Regex (Replace.defaultR.fullRegexSrc crBad.metadata.id)) ∧
        Replace.defaultR.statsFile fsW "t" ([crA] ++ crBad :: [crB])
          = (fsW, [⟨"t", .Error (ReplacerError.Regex
              (Replace.defaultR.fullRegexSrc crBad.metadata.id)).msg⟩]) ∧
        Replace.defaultR.replaceContentFile fsW "t" ([crA] ++ crBad :: [crB])
          = (fsW, [⟨"t", .Error (ReplacerError.Regex
              (Replace.defaultR.fullRegexSrc crBad.metadata.id)).msg⟩])) :=
  ⟨by decide, by decide,
    c2_matcher_failure_aborts_file Replace.defaultR fsW "t" [crA] crBad [crB]
      (by decide) (by decide)⟩

/-! ## Scanner invariant (C4, C7) -/

/-- The strict order on `(pattern index, occurrence counter)` keys, as a
proposition. -/
def keyLt (a b : Nat × Nat) : Prop := a.1 < b.1 ∨ (a.1 = b.1 ∧ a.2 < b.2)

lemma keyLtb_iff {a b : Nat × Nat} : keyLtb a b = true ↔ keyLt a b := by
  obtain ⟨a1, a2⟩ := a; obtain ⟨b1, b2⟩ := b
  simp [keyLtb, keyLt]

lemma keyLt_trans {a b c : Nat × Nat} (h1 : keyLt a b) (h2 : keyLt b c) : keyLt a c := by
  obtain ⟨a1, a2⟩ := a; obtain ⟨b1, b2⟩ := b; obtain ⟨c1, c2⟩ := c
  simp [keyLt] at *
  omega

lemma keyLt_flip {a b : Nat × Nat} (h1 : ¬ a = b) (h2 : keyLtb a b = false) : keyLt b a := by
  obtain ⟨a1, a2⟩ := a; obtain ⟨b1, b2⟩ := b
  simp [keyLtb, keyLt, Prod.mk.injEq] at *
  omega

lemma btIIA_fst_mem {β : Type} {k : Nat × Nat} {v : β} {l : List ((Nat × Nat) × β)}
    {x : Nat × Nat} (hx : x ∈ (btInsertIfAbsent k v l).map Prod.fst) :
    x = k ∨ x ∈ l.map Prod.fst := by
  induction l with
  | nil => simpa [btInsertIfAbsent] using hx
  | cons hd t ih =>
    obtain ⟨k', v'⟩ := hd
    by_cases h1 : k = k'
    · simp only [btInsertIfAbsent, if_pos h1] at hx
      exact Or.inr hx
    · by_cases h2 : keyLtb k k'
      · simp only [btInsertIfAbsent, if_neg h1, if_pos h2, List.map_cons,
          List.mem_cons] at hx
        rcases hx with h | h | h
        · exact Or.inl h
        · exact Or.inr (by simp [h])
        · exact Or.inr (by simp [h])
      · simp only [btInsertIfAbsent, if_neg h1, Bool.not_eq_true] at hx h2
        rw [if_neg (by simp [h2])] at hx
        simp only [List.map_cons, List.mem_cons] at hx
        rcases hx with h | h
        · exact Or.inr (by simp [h])
        · rcases ih h with h' | h'
          · exact Or.inl h'
          · exact Or.inr (by simp [h'])

lemma btIIA_length_fresh {β : Type} {k : Nat × Nat} {v : β} {l : List ((Nat × Nat) × β)}
    (h : k ∉ l.map Prod.fst) :
    (btInsertIfAbsent k v l).length = l.length + 1 := by
  induction l with
  | nil => rfl
  | cons hd t ih =>
    obtain ⟨k', v'⟩ := hd
    simp only [List.map_cons, List.mem_cons, not_or] at h
    obtain ⟨h1, h2⟩ := h
    by_cases hlt : keyLtb k k'
    · simp [btInsertIfAbsent, h1, hlt]
    · simp only [btInsertIfAbsent, if_neg h1, Bool.not_eq_true] at hlt ⊢
      rw [if_neg (by simp [hlt])]
      simp [ih h2]

lemma btIIA_sorted {β : Type} {k : Nat × Nat} {v : β} {l : List ((Nat × Nat) × β)}
    (hs : List.Sorted keyLt (l.map Prod.fst)) (hk : k ∉ l.map Prod.fst) :
    List.Sorted keyLt ((btInsertIfAbsent k v l).map Prod.fst) := by
  induction l with
  | nil => simp [btInsertIfAbsent]
  | cons hd t ih =>
    obtain ⟨k', v'⟩ := hd
    simp only [List.map_cons, List.mem_cons, not_or] at hk
    obtain ⟨hk1, hk2⟩ := hk
    rw [List.map_cons, List.sorted_cons] at hs
    obtain ⟨hs1, hs2⟩ := hs
    by_cases hlt : keyLtb k k'
    · simp only [btInsertIfAbsent, if_neg hk1, if_pos hlt, List.map_cons, List.sorted_cons]
      have hkk' : keyLt k k' := keyLtb_iff.mp hlt
      refine ⟨?_, ?_, hs2⟩
      · intro b hb
        rcases List.mem_cons.mp hb with rfl | hb'
        · exact hkk'
        · exact keyLt_trans hkk' (hs1 b hb')
      · exact hs1
    · simp only [btInsertIfAbsent, if_neg hk1, Bool.not_eq_true] at hlt ⊢
      rw [if_neg (by simp [hlt])]
      simp only [List.map_cons, List.sorted_cons]
      refine ⟨?_, ih hs2 hk2⟩
      intro b hb
      rcases btIIA_fst_mem hb with rfl | hb'
      · exact keyLt_flip (fun h => hk1 h) hlt
      · exact hs1 b hb'

lemma btModify_map_fst {β : Type} (k : Nat × Nat) (f : β → β)
    (l : List ((Nat × Nat) × β)) :
    (btModify k f l).map Prod.fst = l.map Prod.fst := by
  induction l with
  | nil => rfl
  | cons hd t ih =>
    obtain ⟨k', v'⟩ := hd
    by_cases h : k = k' <;> simp [btModify, h, ih]

lemma btModify_length {β : Type} (k : Nat × Nat) (f : β → β)
    (l : List ((Nat × Nat) × β)) :
    (btModify k f l).length = l.length := by
  have := congrArg List.length (btModify_map_fst k f l)
  simpa using this

lemma getD_set_self (l : List Nat) (i a : Nat) (h : i < l.length) :
    (l.set i a).getD i 0 = a := by
  induction l generalizing i with
  | nil => cases h
  | cons x t ih =>
    cases i with
    | zero => rfl
    | succ j => simpa using ih j (by simpa using h)

lemma getD_set_ne (l : List Nat) (i j a : Nat) (h : i ≠ j) :
    (l.set i a).getD j 0 = l.getD j 0 := by
  induction l generalizing i j with
  | nil => simp
  | cons x t ih =>
    cases i with
    | zero => cases j with
      | zero => exact absurd rfl h
      | succ j' => rfl
    | succ i' =>
      cases j with
      | zero => rfl
      | succ j' => simpa using ih i' j' (by omega)

lemma getD_replicate (n j : Nat) : (List.replicate n 0).getD j 0 = 0 := by
  induction n generalizing j with
  | zero => simp
  | succ m ih =>
    cases j with
    | zero => rfl
    | succ j' => simpa [List.replicate] using ih j'

lemma sum_set_getD_succ (l : List Nat) (i : Nat) (h : i < l.length) :
    (l.set i (l.getD i 0 + 1)).sum = l.sum + 1 := by
  induction l generalizing i with
  | nil => cases h
  | cons x t ih =>
    cases i with
    | zero => simp [Nat.add_assoc, Nat.add_comm, Nat.add_left_comm]
    | succ j =>
      have := ih j (by simpa using h)
      simp only [List.set, List.getD_cons_succ, List.sum_cons, this]
      omega

/-- The loop invariant of one `Content::extract` pass over a file:
the level vector has one entry per pattern, the collected map's keys are
sorted (it is a BTreeMap), every key's counter is between 1 and its
pattern's current level, and the number of collected blocks equals the sum
of the levels. -/
def ScanInv (n : Nat) (st : ScanState) : Prop :=
  st.currentLevels.length = n ∧
  List.Sorted keyLt (st.collected.map Prod.fst) ∧
  (∀ x ∈ st.collected.map Prod.fst,
    x.1 < n ∧ 1 ≤ x.2 ∧ x.2 ≤ st.currentLevels.getD x.1 0) ∧
  st.collected.length = st.currentLevels.sum

lemma processPattern_inv {n : Nat} {st : ScanState} (i : Nat) (p : Pattern)
    (li : Nat) (line : Str) (hi : i < n) (hinv : ScanInv n st) :
    ScanInv n (processPattern i p li line st) ∧
    (processPattern i p li line st).currentLevels
      = (if validStart p line then st.currentLevels.set i (st.currentLevels.getD i 0 + 1)
          else st.currentLevels) := by
  obtain ⟨hlen, hsort, hbound, hcount⟩ := hinv
  by_cases hstart : p.start_with line
  · cases hmd : ContentMetadata.new line with
    | none =>
      have hv : validStart p line = false := by simp [validStart, hstart, hmd]
      constructor
      · simp only [processPattern, if_pos hstart, hmd]
        exact ⟨hlen, hsort, hbound, hcount⟩
      · simp [processPattern, hstart, hmd, hv]
    | some md =>
      have hv : validStart p line = true := by simp [validStart, hstart, hmd]
      have hfresh : (i, st.currentLevels.getD i 0 + 1) ∉ st.collected.map Prod.fst := by
        intro hmem
        have h := hbound _ hmem
        dsimp only at h
        omega
      constructor
      · simp only [processPattern, if_pos hstart, hmd]
        refine ⟨by simpa using hlen, ?_, ?_, ?_⟩
        · exact btIIA_sorted hsort hfresh
        · intro x hx
          rcases btIIA_fst_mem hx with rfl | hx'
          · refine ⟨hi, by dsimp only; omega, ?_⟩
            dsimp only
            rw [getD_set_self _ _ _ (by omega)]
          · obtain ⟨h1, h2, h3⟩ := hbound x hx'
            refine ⟨h1, h2, ?_⟩
            dsimp only
            by_cases hxi : x.1 = i
            · rw [hxi, getD_set_self _ _ _ (by omega)]
              rw [hxi] at h3
              omega
            · rw [getD_set_ne _ _ _ _ (by omega)]
              exact h3
        · dsimp only
          rw [btIIA_length_fresh hfresh, hcount,
            sum_set_getD_succ _ _ (by omega)]
      · simp [processPattern, hstart, hmd, hv]
  · have hv : validStart p line = false := by simp [validStart, hstart]
    by_cases hend : p.end_with line
    · constructor
      · simp only [processPattern, if_neg hstart, if_pos hend]
        exact ⟨hlen, hsort, hbound, hcount⟩
      · simp [processPattern, hstart, hend, hv]
    · by_cases hcont : alContains i st.levelStack
      · constructor
        · simp only [processPattern, if_neg hstart, if_neg hend, if_pos hcont]
          refine ⟨hlen, ?_, ?_, ?_⟩
          · rw [btModify_map_fst]; exact hsort
          · rw [btModify_map_fst]; exact hbound
          · rw [btModify_length]; exact hcount
        · simp [processPattern, hstart, hend, hcont, hv]
      · constructor
        · simp only [processPattern, if_neg hstart, if_neg hend, if_neg hcont]
          exact ⟨hlen, hsort, hbound, hcount⟩
        · simp [processPattern, hstart, hend, hcont, hv]

lemma processLinePats_inv {n : Nat} (line : Str) (li : Nat) :
    ∀ (ps : List Pattern) (k : Nat) (st : ScanState),
      k + ps.length ≤ n → ScanInv n st →
      ScanInv n (processLinePats li line k ps st) ∧
      ∀ j, (processLinePats li line k ps st).currentLevels.getD j 0
        = st.currentLevels.getD j 0 +
          (if k ≤ j then
            match ps.get? (j - k) with
            | some p => if validStart p line then 1 else 0
            | none => 0
           else 0) := by
  intro ps
  induction ps with
  | nil =>
    intro k st hk hinv
    refine ⟨hinv, fun j => ?_⟩
    simp [processLinePats]
  | cons p ps ih =>
    intro k st hk hinv
    have hkn : k < n := by simp only [List.length_cons] at hk; omega
    obtain ⟨hinv1, hlev1⟩ := processPattern_inv k p li line hkn hinv
    obtain ⟨hinv2, hlev2⟩ := ih (k + 1) (processPattern k p li line st)
      (by simp only [List.length_cons] at hk; omega) hinv1
    refine ⟨hinv2, fun j => ?_⟩
    have hplp : processLinePats li line k (p :: ps) st
        = processLinePats li line (k + 1) ps (processPattern k p li line st) := rfl
    rw [hplp, hlev2 j, hlev1]
    have hlenst : st.currentLevels.length = n := hinv.1
    rcases Nat.lt_trichotomy j k with hj | hj | hj
    · rw [if_neg (show ¬ (k + 1 ≤ j) by omega), if_neg (show ¬ (k ≤ j) by omega)]
      by_cases hv : validStart p line
      · rw [if_pos hv, getD_set_ne _ _ _ _ (by omega)]
      · rw [if_neg hv]
    · subst hj
      rw [if_neg (show ¬ (j + 1 ≤ j) by omega), if_pos (Nat.le_refl j), Nat.sub_self]
      simp only [List.get?_cons_zero]
      by_cases hv : validStart p line
      · rw [if_pos hv, if_pos hv, getD_set_self _ _ _ (by omega)]
      · rw [if_neg hv, if_neg hv]
    · rw [if_pos (show k + 1 ≤ j by omega), if_pos (show k ≤ j by omega)]
      have hsub : j - k = (j - (k + 1)) + 1 := by omega
      rw [hsub, List.get?_cons_succ]
      by_cases hv : validStart p line
      · rw [if_pos hv, getD_set_ne _ _ _ _ (by omega)]
      · rw [if_neg hv]

lemma scanLinesFrom_inv {n : Nat} (patterns : List Pattern) (hn : patterns.length = n) :
    ∀ (lines : List Str) (li : Nat) (st : ScanState),
      ScanInv n st →
      ScanInv n (scanLinesFrom patterns li lines st) ∧
      ∀ j, (scanLinesFrom patterns li lines st).currentLevels.getD j 0
        = st.currentLevels.getD j 0 +
          (match patterns.get? j with
            | some p => lines.countP (fun line => validStart p line)
            | none => 0) := by
  intro lines
  induction lines with
  | nil =>
    intro li st hinv
    refine ⟨hinv, fun j => ?_⟩
    cases patterns.get? j <;> simp [scanLinesFrom]
  | cons line rest ih =>
    intro li st hinv
    obtain ⟨h1, hl1⟩ := processLinePats_inv line li patterns 0 st (by omega) hinv
    obtain ⟨h2, hl2⟩ := ih (li + 1) (processLinePats li line 0 patterns st) h1
    have hscan : scanLinesFrom patterns li (line :: rest) st
        = scanLinesFrom patterns (li + 1) rest (processLinePats li line 0 patterns st) := rfl
    refine ⟨by rw [hscan]; exact h2, fun j => ?_⟩
    rw [hscan, hl2 j, hl1 j]
    simp only [Nat.zero_le, if_true, Nat.sub_zero]
    cases hj : patterns.get? j with
    | none => simp
    | some p =>
      dsimp only
      rw [List.countP_cons]
      by_cases hv : validStart p line <;> simp [hv] <;> omega

lemma initState_inv (n : Nat) : ScanInv n (initState n) := by
  refine ⟨by simp [initState], by simp [initState], by simp [initState], ?_⟩
  simp only [initState]
  induction n with
  | zero => simp
  | succ m ihm => simpa [List.replicate] using ihm

lemma sum_levels_eq (f : Pattern → Nat) :
    ∀ (ps : List Pattern) (l : List Nat),
      l.length = ps.length →
      (∀ j, l.getD j 0 = match ps.get? j with | some p => f p | none => 0) →
      l.sum = (ps.map f).sum := by
  intro ps
  induction ps with
  | nil =>
    intro l h1 _
    cases l with
    | nil => simp
    | cons x t => cases h1
  | cons p ps ih =>
    intro l h1 h2
    cases l with
    | nil => cases h1
    | cons x t =>
      have hx : x = f p := by simpa using h2 0
      have ht : t.sum = (ps.map f).sum :=
        ih t (by simpa using h1) (fun j => by simpa using h2 (j + 1))
      simp [hx, ht]

/-- The collected map of a full scan: keys sorted lexicographically and one
entry per valid start in the file. -/
lemma scanLines_keys_count (patterns : List Pattern) (lines : List Str) :
    List.Sorted keyLt ((scanLines patterns lines).collected.map Prod.fst) ∧
    (scanLines patterns lines).collected.length
      = (patterns.map (fun p => lines.countP (fun line => validStart p line))).sum := by
  obtain ⟨hinv, hlev⟩ := scanLinesFrom_inv patterns rfl lines 0
    (initState patterns.length) (initState_inv _)
  refine ⟨hinv.2.1, ?_⟩
  show (scanLinesFrom patterns 0 lines (initState patterns.length)).collected.length = _
  rw [hinv.2.2.2]
  refine sum_levels_eq _ patterns _ hinv.1 (fun j => ?_)
  rw [hlev j]
  simp only [initState, getD_replicate, Nat.zero_add]

lemma contentNew_ok (ps : List Pattern) (lines : List Str)
    (h : ∀ p ∈ ps, p.start.countIn lines = p.«end».countIn lines) :
    ∃ m, contentNew ps lines = .ok m := by
  induction ps with
  | nil => exact ⟨0, rfl⟩
  | cons p ps ih =>
    have hp := h p (List.mem_cons_self _ _)
    obtain ⟨m, hm⟩ := ih (fun q hq => h q (List.mem_cons_of_mem _ hq))
    refine ⟨p.start.countIn lines + m, ?_⟩
    simp only [contentNew]
    rw [if_neg (fun hne => hne hp), hm]

/-! ## C4 -/

/-- C4: when every configured Pattern's start and end marker counts agree on
the file, extraction succeeds, and the number of ContentResults equals the
sum over Patterns of the number of start-marker occurrences carrying a valid
`<id:...>` identifier. -/
theorem c4_balanced_extraction_count :
    ∀ (patterns : List Pattern) (lines : List Str),
      (∀ p ∈ patterns, p.start.countIn lines = p.«end».countIn lines) →
      ∃ res, extraction patterns lines = .ok res ∧
        res.length
          = (patterns.map (fun p => lines.countP (fun line => validStart p line))).sum := by
  intro patterns lines h
  obtain ⟨m, hm⟩ := contentNew_ok patterns lines h
  refine ⟨Content.extract patterns lines, by simp [extraction, hm], ?_⟩
  unfold Content.extract
  rw [List.length_map]
  exact (scanLines_keys_count patterns lines).2

def docC4 : List Str :=
  [str "#S1 <id:a>", str "x", str "#E1", str "#S2", str "#E2"]

theorem c4_balanced_extraction_count_witness :
    (∀ p ∈ [pat1, pat2], p.start.countIn docC4 = p.«end».countIn docC4) ∧
      ∃ res, extraction [pat1, pat2] docC4 = .ok res ∧
        res.length
          = ([pat1, pat2].map
              (fun p => docC4.countP (fun line => validStart p line))).sum :=
  ⟨by decide, c4_balanced_extraction_count [pat1, pat2] docC4 (by decide)⟩

/-! ## C7 -/

/-- C7: the successful output of extraction is the collected block map
emitted in BTreeMap key order: sorted primarily by pattern index (the
configured order) and secondarily by occurrence counter — not by file line
order. -/
theorem c7_output_pattern_major_order :
    ∀ (patterns : List Pattern) (lines : List Str),
      List.Sorted keyLt ((scanLines patterns lines).collected.map Prod.fst) ∧
      (∀ res, extraction patterns lines = .ok res →
        res = ((scanLines patterns lines).collected).map (finalizeBlock patterns)) := by
  intro patterns lines
  refine ⟨(scanLines_keys_count patterns lines).1, ?_⟩
  intro res h
  unfold extraction at h
  cases hc : contentNew patterns lines with
  | error e => rw [hc] at h; cases h
  | ok m =>
    rw [hc] at h
    simp only [Except.ok.injEq] at h
    rw [← h]
    rfl

def docC7 : List Str :=
  [str "#S2 <id:b>", str "y", str "#E2", str "#S1 <id:a>", str "x", str "#E1"]

theorem c7_output_pattern_major_order_witness :
    List.Sorted keyLt ((scanLines [pat1, pat2] docC7).collected.map Prod.fst) ∧
      [(⟨⟨str "a"⟩, str "x"⟩ : ContentResults), ⟨⟨str "b"⟩, str "y"⟩]
        = ((scanLines [pat1, pat2] docC7).collected).map (finalizeBlock [pat1, pat2]) :=
  ⟨(c7_output_pattern_major_order [pat1, pat2] docC7).1,
    (c7_output_pattern_major_order [pat1, pat2] docC7).2
      [⟨⟨str "a"⟩, str "x"⟩, ⟨⟨str "b"⟩, str "y"⟩] (by decide)⟩

/-! ## Occurrence infrastructure for the replacement matcher (C1) -/

lemma mem_occList {needle hay : Str} {p : Nat} :
    p ∈ occList needle hay ↔ p ≤ hay.length ∧ needle <+: hay.drop p := by
  simp [occList, List.mem_filter, List.mem_range, Nat.lt_succ_iff,
    List.isPrefixOf_iff_prefix]

lemma occList_sorted (needle hay : Str) :
    List.Pairwise (· < ·) (occList needle hay) :=
  (List.pairwise_lt_range _).filter _

lemma min_of_head? {l : List Nat} (hs : List.Pairwise (· < ·) l) {a : Nat}
    (h : l.head? = some a) : ∀ x ∈ l, a ≤ x := by
  cases l with
  | nil => cases h
  | cons b t =>
    obtain rfl : b = a := by simpa using h
    intro x hx
    rcases List.mem_cons.mp hx with rfl | hx'
    · exact Nat.le_refl x
    · exact Nat.le_of_lt ((List.pairwise_cons.mp hs).1 x hx')

lemma head?_eq_of_min {l : List Nat} (hs : List.Pairwise (· < ·) l) {a : Nat}
    (ha : a ∈ l) (hmin : ∀ x ∈ l, a ≤ x) : l.head? = some a := by
  cases l with
  | nil => cases ha
  | cons b t =>
    rcases List.mem_cons.mp ha with rfl | ha'
    · rfl
    · have h1 := (List.pairwise_cons.mp hs).1 a ha'
      have h2 := hmin b (List.mem_cons_self _ _)
      omega

lemma max_of_getLast? {l : List Nat} (hs : List.Pairwise (· < ·) l) {a : Nat}
    (h : l.getLast? = some a) : ∀ x ∈ l, x ≤ a := by
  induction l with
  | nil => cases h
  | cons b t ih =>
    cases t with
    | nil =>
      obtain rfl : b = a := by simpa using h
      intro x hx
      simp only [List.mem_singleton] at hx
      omega
    | cons c t' =>
      rw [List.getLast?_cons_cons] at h
      intro x hx
      rcases List.mem_cons.mp hx with rfl | hx'
      · have hca : c ∈ c :: t' := List.mem_cons_self _ _
        have := ih (List.pairwise_cons.mp hs).2 h c hca
        have hxc := (List.pairwise_cons.mp hs).1 c hca
        omega
      · exact ih (List.pairwise_cons.mp hs).2 h x hx'

lemma getLast?_eq_of_max {l : List Nat} (hs : List.Pairwise (· < ·) l) {a : Nat}
    (ha : a ∈ l) (hmax : ∀ x ∈ l, x ≤ a) : l.getLast? = some a := by
  induction l with
  | nil => cases ha
  | cons b t ih =>
    cases t with
    | nil =>
      obtain rfl : a = b := by simpa using ha
      rfl
    | cons c t' =>
      rw [List.getLast?_cons_cons]
      have hbc := (List.pairwise_cons.mp hs).1 c (List.mem_cons_self _ _)
      have ha' : a ∈ c :: t' := by
        rcases List.mem_cons.mp ha with rfl | ha'
        · have := hmax c (by simp)
          omega
        · exact ha'
      exact ih (List.pairwise_cons.mp hs).2 ha'
        (fun x hx => hmax x (List.mem_cons_of_mem _ hx))

lemma prefix_drop_decomp {needle hay : Str} {p : Nat} (h : needle <+: hay.drop p) :
    hay.drop p = needle ++ hay.drop (p + needle.length) := by
  obtain ⟨t, ht⟩ := h
  have h2 : hay.drop (p + needle.length) = t := by
    have h3 : (hay.drop p).drop needle.length = t := by
      rw [← ht, List.drop_left]
    rwa [List.drop_drop] at h3
  rw [h2, ht]

lemma slice_of_prefix {needle hay : Str} {p : Nat} (h : needle <+: hay.drop p) :
    sliceStr hay p (p + needle.length) = needle := by
  unfold sliceStr
  rw [Nat.add_sub_cancel_left]
  exact (List.prefix_iff_eq_take.mp h).symm

lemma prefix_drop_of_take_eq {needle u v : Str} {p m : Nat}
    (hagree : u.take m = v.take m) (hle : p + needle.length ≤ m) :
    (needle <+: u.drop p ↔ needle <+: v.drop p) := by
  have h : (u.drop p).take needle.length = (v.drop p).take needle.length := by
    rw [List.take_drop, List.take_drop]
    have hu : u.take (p + needle.length) = v.take (p + needle.length) := by
      have h2 := congrArg (List.take (p + needle.length)) hagree
      rwa [List.take_take, List.take_take, Nat.min_eq_left hle] at h2
    rw [hu]
  constructor <;> intro hp <;> rw [List.prefix_iff_eq_take] at hp ⊢
  · rw [← h]; exact hp
  · rw [h]; exact hp

lemma drop_append_ge {a b : Str} {k : Nat} (h : a.length ≤ k) :
    (a ++ b).drop k = b.drop (k - a.length) := by
  have h1 : k = a.length + (k - a.length) := by omega
  rw [h1, ← List.drop_drop, List.drop_left]
  congr 1
  omega

lemma trim_wrap (x : Str) : trimChars ('\n' :: x ++ ['\n']) = trimChars x := by
  unfold trimChars
  have hnl : Char.isWhitespace '\n' = true := by decide
  rw [show ('\n' :: x ++ ['\n'] : Str) = '\n' :: (x ++ ['\n']) from rfl]
  rw [List.dropWhile_cons]
  simp only [hnl, if_true, List.dropWhile_append]
  by_cases hx : (x.dropWhile Char.isWhitespace).isEmpty
  · have hx' : x.dropWhile Char.isWhitespace = [] := by
      simpa [List.isEmpty_iff] using hx
    simp [hx, hx', List.dropWhile_cons, hnl]
  · rw [if_neg hx]
    rw [List.reverse_append]
    simp only [List.reverse_cons, List.reverse_nil, List.nil_append, List.singleton_append,
      List.dropWhile_cons, hnl, if_true]

/-! ## C1 -/

lemma find_and_replace_replaced_inv {r : Replace} {content : Str} {cr : ContentResults}
    {i T d : Str}
    (h : r.find_and_replace content cr = .ok (.Replaced i T d)) :
    regexCompiles (r.fullRegexSrc cr.metadata.id) = true ∧
    ∃ p q, leftmostGreedyMatch content (replaceSub r.start (str "ID") cr.metadata.id)
        (replaceSub r.«end» (str "ID") cr.metadata.id) = some (p, q) ∧
      T = content.take p
          ++ expandReplacement
              [sliceStr content p (q + (replaceSub r.«end» (str "ID") cr.metadata.id).length),
               sliceStr content p (p + (replaceSub r.start (str "ID") cr.metadata.id).length),
               cr.metadata.id,
               sliceStr content (p + (replaceSub r.start (str "ID") cr.metadata.id).length) q,
               sliceStr content q (q + (replaceSub r.«end» (str "ID") cr.metadata.id).length),
               cr.metadata.id]
              (sliceStr content p (p + (replaceSub r.start (str "ID") cr.metadata.id).length)
                ++ '\n' :: cr.data
                ++ '\n' :: sliceStr content q
                    (q + (replaceSub r.«end» (str "ID") cr.metadata.id).length))
          ++ content.drop (q + (replaceSub r.«end» (str "ID") cr.metadata.id).length) := by
  unfold Replace.find_and_replace at h
  by_cases hc : regexCompiles (r.fullRegexSrc cr.metadata.id) = false
  · rw [if_pos hc] at h
    cases h
  · rw [if_neg hc] at h
    refine ⟨by simpa using hc, ?_⟩
    cases hm : leftmostGreedyMatch content (replaceSub r.start (str "ID") cr.metadata.id)
        (replaceSub r.«end» (str "ID") cr.metadata.id) with
    | none => rw [hm] at h; cases h
    | some pq =>
      obtain ⟨p, q⟩ := pq
      rw [hm] at h
      dsimp only at h
      by_cases heq : trimChars (sliceStr content
          (p + (replaceSub r.start (str "ID") cr.metadata.id).length) q) = cr.data
      · rw [if_pos heq] at h
        exact absurd h (by simp)
      · rw [if_neg heq] at h
        simp only [Except.ok.injEq, ReplaceStatus.Replaced.injEq] at h
        exact ⟨p, q, rfl, h.2.1.symm⟩

lemma find_and_replace_equal_of {r : Replace} {content : Str} {cr : ContentResults}
    {p q : Nat}
    (hc : regexCompiles (r.fullRegexSrc cr.metadata.id) = true)
    (hm : leftmostGreedyMatch content (replaceSub r.start (str "ID") cr.metadata.id)
        (replaceSub r.«end» (str "ID") cr.metadata.id) = some (p, q))
    (heq : trimChars (sliceStr content
        (p + (replaceSub r.start (str "ID") cr.metadata.id).length) q) = cr.data) :
    r.find_and_replace content cr = .ok (.Equal cr.metadata.id) := by
  unfold Replace.find_and_replace
  rw [if_neg (by simp [hc]), hm]
  dsimp only
  rw [if_pos heq]

lemma drop_append_len {a b : Str} {k : Nat} (h : a.length = k) : (a ++ b).drop k = b := by
  subst h
  exact List.drop_left a b

lemma take_append2 {a b c : Str} {k : Nat} (h : a.length + b.length = k) :
    (a ++ (b ++ c)).take k = a ++ b := by
  subst h
  rw [← List.append_assoc, ← List.length_append]
  exact List.take_left (a ++ b) c

lemma drop_append2 {a b c : Str} {k : Nat} (h : a.length + b.length = k) :
    (a ++ (b ++ c)).drop k = c := by
  subst h
  rw [← List.append_assoc, ← List.length_append]
  exact List.drop_left (a ++ b) c

/-- After the splice performed by a `Replaced` rewrite, the matcher finds the
same start position, the inserted end marker is the last end-marker
occurrence after it, and the captured content is exactly the inserted
`"\n" ++ data ++ "\n"` — provided the end marker occurs in the inserted
window only at its final position. -/
lemma splice_rematch {content s e data : Str} {p q : Nat}
    (hE : occList e ('\n' :: data ++ '\n' :: e) = [data.length + 2])
    (hm : leftmostGreedyMatch content s e = some (p, q)) :
    leftmostGreedyMatch
        (content.take p ++ s ++ '\n' :: data ++ '\n' :: e
          ++ content.drop (q + e.length)) s e
      = some (p, p + s.length + (data.length + 2)) ∧
    sliceStr
        (content.take p ++ s ++ '\n' :: data ++ '\n' :: e
          ++ content.drop (q + e.length))
        (p + s.length) (p + s.length + (data.length + 2))
      = '\n' :: data ++ ['\n'] := by
  unfold leftmostGreedyMatch at hm
  cases hph : (occList s content).head? with
  | none => rw [hph] at hm; cases hm
  | some p0 =>
    rw [hph] at hm
    dsimp only at hm
    cases hql : ((occList e content).filter fun q' => p0 + s.length ≤ q').getLast? with
    | none => rw [hql] at hm; cases hm
    | some q0 =>
      rw [hql] at hm
      simp only [Option.some.injEq, Prod.mk.injEq] at hm
      obtain ⟨rfl, rfl⟩ := hm
      have hpmem : p0 ∈ occList s content :=
        List.mem_of_mem_head? (Option.mem_def.mpr hph)
      obtain ⟨hp_le, hp_pref⟩ := mem_occList.mp hpmem
      have hp_min := min_of_head? (occList_sorted s content) hph
      have hqfmem : q0 ∈ (occList e content).filter fun q' => p0 + s.length ≤ q' :=
        List.mem_of_mem_getLast? (Option.mem_def.mpr hql)
      obtain ⟨hq_mem, hpq'⟩ := List.mem_filter.mp hqfmem
      have hpq : p0 + s.length ≤ q0 := by simpa using hpq'
      obtain ⟨hq_le, hq_pref⟩ := mem_occList.mp hq_mem
      have hq_max : ∀ x ∈ occList e content, p0 + s.length ≤ x → x ≤ q0 := by
        intro x hx hpx
        exact max_of_getLast? ((occList_sorted e content).filter _) hql x
          (List.mem_filter.mpr ⟨hx, by simpa using hpx⟩)
      have he_ne : e ≠ [] := by
        intro h0
        subst h0
        have h1 : occList ([] : Str) ('\n' :: data ++ '\n' :: ([] : Str))
            = List.range (('\n' :: data ++ '\n' :: ([] : Str)).length + 1) := by
          simp [occList, List.isPrefixOf_iff_prefix]
        rw [h1] at hE
        have h2 := congrArg List.length hE
        simp at h2
      have hAlen : (content.take p0).length = p0 := by
        rw [List.length_take]
        omega
      have hT_right : content.take p0 ++ s ++ '\n' :: data ++ '\n' :: e
            ++ content.drop (q0 + e.length)
          = content.take p0
              ++ (s ++ ('\n' :: data ++ ('\n' :: e ++ content.drop (q0 + e.length)))) := by
        simp [List.append_assoc]
      rw [hT_right]
      have hW2split : ('\n' :: data ++ ('\n' :: e ++ content.drop (q0 + e.length)) : Str)
          = ('\n' :: data ++ ['\n']) ++ (e ++ content.drop (q0 + e.length)) := by
        simp
      have hW1len : ('\n' :: data ++ ['\n'] : Str).length = data.length + 2 := by
        simp
      have hAS : content.drop p0 = s ++ content.drop (p0 + s.length) :=
        prefix_drop_decomp hp_pref
      have heB : content.drop q0 = e ++ content.drop (q0 + e.length) :=
        prefix_drop_decomp hq_pref
      have hM : content.drop (p0 + s.length)
          = sliceStr content (p0 + s.length) q0 ++ content.drop q0 := by
        conv_lhs => rw [← List.take_append_drop (q0 - (p0 + s.length))
          (content.drop (p0 + s.length))]
        have h3 : p0 + s.length + (q0 - (p0 + s.length)) = q0 := by omega
        rw [List.drop_drop, h3]
        rfl
      have hcontent : content
          = content.take p0 ++ (s ++ (sliceStr content (p0 + s.length) q0
              ++ (e ++ content.drop (q0 + e.length)))) := by
        conv_lhs => rw [← List.take_append_drop p0 content]
        rw [hAS, hM, heB]
      have hsp : s <+: (content.take p0
          ++ (s ++ ('\n' :: data ++ ('\n' :: e ++ content.drop (q0 + e.length))))).drop p0 := by
        rw [drop_append_len hAlen]
        exact List.prefix_append s _
      have hagree : (content.take p0
            ++ (s ++ ('\n' :: data ++ ('\n' :: e ++ content.drop (q0 + e.length))))).take
              (p0 + s.length)
          = content.take (p0 + s.length) := by
        conv_rhs => rw [hcontent]
        rw [take_append2 (by rw [hAlen]), take_append2 (by rw [hAlen])]
      have hTmin : ∀ x ∈ occList s (content.take p0
          ++ (s ++ ('\n' :: data ++ ('\n' :: e ++ content.drop (q0 + e.length))))), p0 ≤ x := by
        intro x hx
        by_contra hlt
        push_neg at hlt
        obtain ⟨hxle, hxpref⟩ := mem_occList.mp hx
        have hxc : s <+: content.drop x :=
          (prefix_drop_of_take_eq hagree (by omega)).mp hxpref
        have := hp_min x (mem_occList.mpr ⟨by omega, hxc⟩)
        omega
      have hTlen_ge : p0 ≤ (content.take p0
          ++ (s ++ ('\n' :: data ++ ('\n' :: e ++ content.drop (q0 + e.length))))).length := by
        simp only [List.length_append, List.length_cons, hAlen]
        omega
      have hhead2 : (occList s (content.take p0
          ++ (s ++ ('\n' :: data ++ ('\n' :: e ++ content.drop (q0 + e.length)))))).head?
          = some p0 :=
        head?_eq_of_min (occList_sorted _ _) (mem_occList.mpr ⟨hTlen_ge, hsp⟩) hTmin
      have hWB : (content.take p0
            ++ (s ++ ('\n' :: data ++ ('\n' :: e ++ content.drop (q0 + e.length))))).drop
              (p0 + s.length)
          = ('\n' :: data ++ ['\n']) ++ (e ++ content.drop (q0 + e.length)) := by
        rw [drop_append2 (by rw [hAlen]), hW2split]
      have hq2_drop : (content.take p0
            ++ (s ++ ('\n' :: data ++ ('\n' :: e ++ content.drop (q0 + e.length))))).drop
              (p0 + s.length + (data.length + 2))
          = e ++ content.drop (q0 + e.length) := by
        rw [← List.drop_drop, hWB, drop_append_len hW1len]
      have hq2_pref : e <+: (content.take p0
          ++ (s ++ ('\n' :: data ++ ('\n' :: e ++ content.drop (q0 + e.length))))).drop
            (p0 + s.length + (data.length + 2)) := by
        rw [hq2_drop]
        exact List.prefix_append e _
      have hTmax2 : ∀ x ∈ occList e (content.take p0
          ++ (s ++ ('\n' :: data ++ ('\n' :: e ++ content.drop (q0 + e.length))))),
          p0 + s.length ≤ x → x ≤ p0 + s.length + (data.length + 2) := by
        intro x hx hge
        by_contra hgt
        push_neg at hgt
        obtain ⟨hxle, hxpref⟩ := mem_occList.mp hx
        have h1 : (content.take p0
              ++ (s ++ ('\n' :: data ++ ('\n' :: e ++ content.drop (q0 + e.length))))).drop x
            = ((content.take p0
              ++ (s ++ ('\n' :: data ++ ('\n' :: e ++ content.drop (q0 + e.length))))).drop
                (p0 + s.length)).drop (x - (p0 + s.length)) := by
          rw [List.drop_drop]
          congr 1
          omega
        have hWle : ('\n' :: data ++ ['\n'] : Str).length ≤ x - (p0 + s.length) := by
          omega
        have h2 : (('\n' :: data ++ ['\n']) ++ (e ++ content.drop (q0 + e.length))).drop
              (x - (p0 + s.length))
            = content.drop (q0 + (x - (p0 + s.length) - (data.length + 2))) := by
          rw [drop_append_ge hWle, hW1len, ← heB, List.drop_drop]
        rw [hWB, h2] at h1
        rw [h1] at hxpref
        have hyq : q0 + (x - (p0 + s.length) - (data.length + 2)) ≤ content.length := by
          by_contra hyg
          push_neg at hyg
          rw [List.drop_eq_nil_of_le (by omega)] at hxpref
          exact he_ne (List.prefix_nil.mp hxpref)
        have := hq_max _ (mem_occList.mpr ⟨hyq, hxpref⟩) (by omega)
        omega
      have hq2_le : p0 + s.length + (data.length + 2)
          ≤ (content.take p0
              ++ (s ++ ('\n' :: data ++ ('\n' :: e ++ content.drop (q0 + e.length))))).length := by
        simp only [List.length_append, List.length_cons, hAlen]
        omega
      have hlast2 : ((occList e (content.take p0
            ++ (s ++ ('\n' :: data ++ ('\n' :: e ++ content.drop (q0 + e.length)))))).filter
              fun q' => p0 + s.length ≤ q').getLast?
          = some (p0 + s.length + (data.length + 2)) := by
        refine getLast?_eq_of_max ((occList_sorted e _).filter _) ?_ ?_
        · refine List.mem_filter.mpr ⟨mem_occList.mpr ⟨hq2_le, hq2_pref⟩, ?_⟩
          simpa using (by omega : p0 + s.length ≤ p0 + s.length + (data.length + 2))
        · intro x hx
          obtain ⟨hx1, hx2⟩ := List.mem_filter.mp hx
          exact hTmax2 x hx1 (by simpa using hx2)
      constructor
      · unfold leftmostGreedyMatch
        rw [hhead2]
        dsimp only
        rw [hlast2]
      · show ((content.take p0
            ++ (s ++ ('\n' :: data ++ ('\n' :: e ++ content.drop (q0 + e.length))))).drop
              (p0 + s.length)).take (p0 + s.length + (data.length + 2) - (p0 + s.length))
          = '\n' :: data ++ ['\n']
        have h4 : p0 + s.length + (data.length + 2) - (p0 + s.length) = data.length + 2 := by
          omega
        rw [hWB, h4, ← hW1len, List.take_left]

/-- C1 counterexample: two ContentResults with the same identifier but
different data.  The first run yields `Replaced` for the first ContentResult
(and for the second, which overwrites the block), so a second run on the
resulting text compares the block against the first data again and yields
`Replaced`, not `Equal`, for the identifier of the first ContentResult. -/
theorem c1_counterexample :
    Replace.defaultR.replaceList "t" docW [crA, crB]
        = .ok (str "<!--📖A-->\nb\n<!--A📖-->",
            [⟨"t", .Replaced (str "A") (str "<!--📖A-->\na\n<!--A📖-->") (str "a")⟩,
             ⟨"t", .Replaced (str "A") (str "<!--📖A-->\nb\n<!--A📖-->") (str "b")⟩]) ∧
      Replace.defaultR.replaceList "t" (str "<!--📖A-->\nb\n<!--A📖-->") [crA, crB]
        = .ok (str "<!--📖A-->\nb\n<!--A📖-->",
            [⟨"t", .Replaced (str "A") (str "<!--📖A-->\na\n<!--A📖-->") (str "a")⟩,
             ⟨"t", .Replaced (str "A") (str "<!--📖A-->\nb\n<!--A📖-->") (str "b")⟩]) := by
  constructor <;> decide

lemma match_slices {content s e : Str} {p q : Nat}
    (hm : leftmostGreedyMatch content s e = some (p, q)) :
    sliceStr content p (p + s.length) = s ∧ sliceStr content q (q + e.length) = e := by
  unfold leftmostGreedyMatch at hm
  cases hph : (occList s content).head? with
  | none => rw [hph] at hm; cases hm
  | some p0 =>
    rw [hph] at hm
    dsimp only at hm
    cases hql : ((occList e content).filter fun q' => p0 + s.length ≤ q').getLast? with
    | none => rw [hql] at hm; cases hm
    | some q0 =>
      rw [hql] at hm
      simp only [Option.some.injEq, Prod.mk.injEq] at hm
      obtain ⟨rfl, rfl⟩ := hm
      have hpmem : p0 ∈ occList s content :=
        List.mem_of_mem_head? (Option.mem_def.mpr hph)
      have hqmem : q0 ∈ occList e content :=
        (List.mem_filter.mp (List.mem_of_mem_getLast? (Option.mem_def.mpr hql))).1
      exact ⟨ slice_of_prefix (mem_occList.mp hpmem).2,
        slice_of_prefix (mem_occList.mp hqmem).2⟩

lemma replaceSubAux_mem (needle repl : Str) :
    ∀ (hay : Str) (k : Nat) (c : Char),
      c ∈ replaceSubAux needle repl k hay → c ∈ hay ∨ c ∈ repl := by
  intro hay
  induction hay with
  | nil => intro k c hc; cases k <;> simp [replaceSubAux] at hc
  | cons x rest ih =>
    intro k c hc
    cases k with
    | zero =>
      simp only [replaceSubAux] at hc
      by_cases hp : (!needle.isEmpty && needle.isPrefixOf (x :: rest)) = true
      · rw [if_pos hp] at hc
        rcases List.mem_append.mp hc with h | h
        · exact Or.inr h
        · rcases ih _ c h with h' | h'
          · exact Or.inl (List.mem_cons_of_mem _ h')
          · exact Or.inr h'
      · rw [if_neg hp] at hc
        rcases List.mem_cons.mp hc with rfl | h
        · exact Or.inl (List.mem_cons_self _ _)
        · rcases ih _ c h with h' | h'
          · exact Or.inl (List.mem_cons_of_mem _ h')
          · exact Or.inr h'
    | succ k' =>
      simp only [replaceSubAux] at hc
      rcases ih _ c hc with h' | h'
      · exact Or.inl (List.mem_cons_of_mem _ h')
      · exact Or.inr h'

lemma replaceSub_mem {hay needle repl : Str} {c : Char}
    (h : c ∈ replaceSub hay needle repl) : c ∈ hay ∨ c ∈ repl :=
  replaceSubAux_mem needle repl hay 0 c h

lemma expandAux_no_dollar (caps : List Str) :
    ∀ (fuel : Nat) (repl : Str), repl.length ≤ fuel →
      (∀ c ∈ repl, c ≠ '$') → expandAux caps fuel repl = repl := by
  intro fuel
  induction fuel with
  | zero =>
    intro repl h1 _
    cases repl with
    | nil => rfl
    | cons c rest => simp at h1
  | succ f ih =>
    intro repl h1 h2
    cases repl with
    | nil => rfl
    | cons c rest =>
      have hc : ¬ c = '$' := h2 c (List.mem_cons_self _ _)
      simp only [expandAux]
      rw [if_neg hc]
      rw [ih rest (by simpa using h1) (fun x hx => h2 x (List.mem_cons_of_mem _ hx))]

/-- No `$` in the replacement string: `re.replace_all`'s expansion leaves it
literal. -/
lemma expandReplacement_no_dollar (caps : List Str) (repl : Str)
    (h : ∀ c ∈ repl, c ≠ '$') : expandReplacement caps repl = repl :=
  expandAux_no_dollar caps repl.length repl (Nat.le_refl _) h

/-- C1 amended: replacement of a single ContentResult through the default
marker templates is idempotent.  The hypotheses delimit the domain on which
the structural matcher is exactly the compiled regex: the identifier
contributes no capture group of its own and no `$` (no `(`, `)`, `$`), the
data is trimmed and free of `$` (so `replace_all`'s `$`-expansion leaves
the replacement literal), and the substituted end marker occurs in the
inserted window `"\n" ++ data ++ "\n" ++ endMarker` only at its final
position.  Then a `Replaced` outcome rewrites the document so that running
`find_and_replace` again on the result yields `Equal` for that identifier:
the end marker text is preserved byte-for-byte by the rewrite (capture
group 4 is the whole end-marker span for such identifiers), so the second
run's matcher still finds the pair.  (The original claim quantified over
whole ContentResult sequences; sequential processing lets one ContentResult
overwrite another's block, as the counterexample shows, so idempotence
holds per ContentResult, not per sequence.) -/
theorem c1_single_replacement_idempotent :
    ∀ (content : Str) (cr : ContentResults) (i T d : Str),
      trimChars cr.data = cr.data →
      (∀ c ∈ cr.metadata.id, c ≠ '(' ∧ c ≠ ')' ∧ c ≠ '$') →
      (∀ c ∈ cr.data, c ≠ '$') →
      occList (replaceSub Replace.defaultR.«end» (str "ID") cr.metadata.id)
          ('\n' :: cr.data
            ++ '\n' :: replaceSub Replace.defaultR.«end» (str "ID") cr.metadata.id)
        = [cr.data.length + 2] →
      Replace.defaultR.find_and_replace content cr = .ok (.Replaced i T d) →
      Replace.defaultR.find_and_replace T cr = .ok (.Equal cr.metadata.id) := by
  intro content cr i T d hdata hid hdollar hE hrun
  obtain ⟨hc, p, q, hm, hT⟩ := find_and_replace_replaced_inv hrun
  obtain ⟨hks, hke⟩ := match_slices hm
  have hnoS : ∀ c ∈ replaceSub Replace.defaultR.start (str "ID") cr.metadata.id,
      c ≠ '$' := by
    intro c hc' hceq
    subst hceq
    rcases replaceSub_mem hc' with h | h
    · exact absurd h (by decide)
    · exact (hid _ h).2.2 rfl
  have hnoE : ∀ c ∈ replaceSub Replace.defaultR.«end» (str "ID") cr.metadata.id,
      c ≠ '$' := by
    intro c hc' hceq
    subst hceq
    rcases replaceSub_mem hc' with h | h
    · exact absurd h (by decide)
    · exact (hid _ h).2.2 rfl
  rw [hks, hke] at hT
  have hrepl : ∀ c ∈ replaceSub Replace.defaultR.start (str "ID") cr.metadata.id
      ++ '\n' :: cr.data
      ++ '\n' :: replaceSub Replace.defaultR.«end» (str "ID") cr.metadata.id, c ≠ '$' := by
    intro c hc'
    simp only [List.mem_append, List.mem_cons] at hc'
    rcases hc' with (h | rfl | h) | rfl | h
    · exact hnoS c h
    · decide
    · exact hdollar c h
    · decide
    · exact hnoE c h
  rw [expandReplacement_no_dollar _ _ hrepl] at hT
  obtain ⟨hm2, hcap⟩ := splice_rematch hE hm
  have hT2 : T = content.take p
      ++ replaceSub Replace.defaultR.start (str "ID") cr.metadata.id
      ++ '\n' :: cr.data
      ++ '\n' :: replaceSub Replace.defaultR.«end» (str "ID") cr.metadata.id
      ++ content.drop
          (q + (replaceSub Replace.defaultR.«end» (str "ID") cr.metadata.id).length) := by
    rw [hT]
    simp [List.append_assoc]
  rw [hT2]
  exact find_and_replace_equal_of hc hm2 (by rw [hcap, trim_wrap, hdata])

theorem c1_single_replacement_idempotent_witness :
    trimChars crA.data = crA.data ∧
      (∀ c ∈ crA.metadata.id, c ≠ '(' ∧ c ≠ ')' ∧ c ≠ '$') ∧
      (∀ c ∈ crA.data, c ≠ '$') ∧
      Replace.defaultR.find_and_replace docW crA
        = .ok (.Replaced (str "A") (str "<!--📖A-->\na\n<!--A📖-->") (str "a")) ∧
      Replace.defaultR.find_and_replace (str "<!--📖A-->\na\n<!--A📖-->") crA
        = .ok (.Equal crA.metadata.id) :=
  ⟨by decide, by decide, by decide, by decide,
    c1_single_replacement_idempotent docW crA (str "A")
      (str "<!--📖A-->\na\n<!--A📖-->") (str "a") (by decide) (by decide) (by decide)
      (by decide) (by decide)⟩
